import Mathlib

/-!
Verification of the document-segmentation pipeline of the github-rag-chatbot
repository (src/services/document_processor.py and src/services/notebook_parser.py).

The Python code is shallowly embedded: strings are Lean `String`s (content-level
algorithms work on `List Char`), Python dict metadata becomes the `Meta`
structure, `langchain.schema.Document` becomes `Document`, unhandled Python
exceptions become `Except PyErr`.  CPython's `ast.parse`/`ast.walk` is an
external library, so the pipeline is parameterised by an oracle
`pyParse : String → Option (List PyNode)` giving the definition nodes of a file
(`none` models a `SyntaxError`, which the code catches); CPython guarantees
`lineno ≥ 1` for real parses.  `json.loads` is embedded as an executable JSON
parser `jsonLoads` following Python's `json` grammar (including the
`NaN`/`Infinity` extensions and strict control-character handling).
-/

/-- Python exceptions that escape uncaught from the embedded code. -/
inductive PyErr where
  | attributeError
  | typeError
deriving DecidableEq

/-- Chunk/document metadata: the dict keys the processor reads or writes.
`has_imports` models `metadata.get('has_imports')` truthiness (absent = false). -/
structure Meta where
  source : String := ""
  chunk_type : Option String := none
  node_type : Option String := none
  node_name : Option String := none
  start_line : Option Nat := none
  end_line : Option Nat := none
  has_imports : Bool := false
  preprocessed : Option String := none
deriving DecidableEq

/-- `langchain.schema.Document`: page content plus metadata. -/
structure Document where
  page_content : String
  metadata : Meta
deriving DecidableEq

/-- One definition node produced by `ast.walk`: a `FunctionDef`,
`AsyncFunctionDef` (both `isClass = false`) or `ClassDef`, with its
1-indexed `lineno` and `end_lineno` position information. -/
structure PyNode where
  name : String
  isClass : Bool
  lineno : Nat
  end_lineno : Nat
deriving DecidableEq

/-- Python values produced by `json.loads` (numbers keep their source lexeme). -/
inductive Json where
  | null
  | bool (b : Bool)
  | num (lex : String)
  | str (s : String)
  | arr (elems : List Json)
  | obj (fields : List (String × Json))

/-- Python equality test between an arbitrary value and a string literal
(`value == "markdown"`): true only for that exact string. -/
def jsonEqStr (v : Json) (s : String) : Bool :=
  match v with
  | .str t => t == s
  | _ => false

/-- Split a character list at every occurrence of `sep` (Python `str.split(sep)`
semantics for a one-character separator: always at least one group). -/
def splitOnC (sep : Char) : List Char → List (List Char)
  | [] => [[]]
  | c :: rest =>
    if c == sep then [] :: splitOnC sep rest
    else
      match splitOnC sep rest with
      | [] => [[c]]
      | l :: ls => (c :: l) :: ls

/-- Python `content.split('\n')`. -/
def pySplitLines (s : String) : List String :=
  (splitOnC '\n' s.data).map String.mk

/-- Join character lists with a newline between consecutive groups
(the `'\n'.join` of Python). -/
def joinNlC : List (List Char) → List Char
  | [] => []
  | [l] => l
  | l :: ls => l ++ '\n' :: joinNlC ls

/-- Python `'\n'.join(lines)`. -/
def joinNl (lines : List String) : String :=
  String.mk (joinNlC (lines.map String.data))

/-- Whitespace characters stripped by Python `str.strip()` (ASCII part). -/
def isPyWs (c : Char) : Bool :=
  c == ' ' || c == '\t' || c == '\n' || c == '\r' || c == Char.ofNat 11 || c == Char.ofNat 12

/-- Python `str.strip()`. -/
def pyStrip (s : String) : String :=
  String.mk (((s.data.dropWhile isPyWs).reverse.dropWhile isPyWs).reverse)

/-- Python `str.startswith(pre)`. -/
def pyStartsWith (s pre : String) : Bool :=
  pre.data.isPrefixOf s.data

/-- Python `str.endswith(suf)`. -/
def pyEndsWith (s suf : String) : Bool :=
  suf.data.isSuffixOf s.data

/-- ASCII lower-casing, as `str.lower()` does on the filenames involved. -/
def pyLowerChar (c : Char) : Char :=
  if 'A' ≤ c ∧ c ≤ 'Z' then Char.ofNat (c.toNat + 32) else c

/-- Python `str.lower()`. -/
def pyLower (s : String) : String :=
  String.mk (s.data.map pyLowerChar)

/-- `os.path.splitext(path)[1].lower()`: the extension starts at the last dot
of the basename, provided some earlier basename character is not a dot
(leading dots of the basename never start an extension). -/
def extOf (path : String) : String :=
  let base := ((splitOnC '/' path.data).getLastD [])
  let revNoDot := base.reverse.takeWhile (fun c => c != '.')
  if revNoDot.length == base.length then ""
  else
    let stem := base.take (base.length - revNoDot.length - 1)
    if stem.any (fun c => c != '.') then
      pyLower (String.mk ('.' :: revNoDot.reverse))
    else ""

/-- `notebook_parser.is_notebook_file`: `filename.lower().endswith(".ipynb")`. -/
def is_notebook_file (filename : String) : Bool :=
  pyEndsWith (pyLower filename) ".ipynb"

/-- Opening brace character. -/
def lbrace : Char := Char.ofNat 123

/-- Closing brace character. -/
def rbrace : Char := Char.ofNat 125

/-- JSON whitespace (the characters `json.loads` skips between tokens). -/
def skipWs : List Char → List Char
  | [] => []
  | c :: rest =>
    if c == ' ' || c == '\t' || c == '\n' || c == '\r' then skipWs rest
    else c :: rest

/-- Consume an expected literal tail (`ull` after `n`, etc.). -/
def stripLitC (pat : List Char) (l : List Char) : Option (List Char) :=
  match pat, l with
  | [], rest => some rest
  | p :: ps, c :: cs => if c == p then stripLitC ps cs else none
  | _ :: _, [] => none

/-- Value of one hexadecimal digit. -/
def hexVal (c : Char) : Option Nat :=
  if '0' ≤ c ∧ c ≤ '9' then some (c.toNat - '0'.toNat)
  else if 'a' ≤ c ∧ c ≤ 'f' then some (c.toNat - 'a'.toNat + 10)
  else if 'A' ≤ c ∧ c ≤ 'F' then some (c.toNat - 'A'.toNat + 10)
  else none

/-- JSON string body scanner (opening quote already consumed): handles the
escape sequences of the JSON grammar and rejects raw control characters, as
Python's strict `json.loads` does. -/
def pStrGo : Nat → List Char → List Char → Option (String × List Char)
  | 0, _, _ => none
  | Nat.succ fuel, acc, l =>
    match l with
    | [] => none
    | c :: rest =>
      if c == '"' then some (String.mk acc.reverse, rest)
      else if c == '\\' then
        match rest with
        | [] => none
        | e :: rest2 =>
          if e == '"' then pStrGo fuel ('"' :: acc) rest2
          else if e == '\\' then pStrGo fuel ('\\' :: acc) rest2
          else if e == '/' then pStrGo fuel ('/' :: acc) rest2
          else if e == 'b' then pStrGo fuel (Char.ofNat 8 :: acc) rest2
          else if e == 'f' then pStrGo fuel (Char.ofNat 12 :: acc) rest2
          else if e == 'n' then pStrGo fuel ('\n' :: acc) rest2
          else if e == 'r' then pStrGo fuel ('\r' :: acc) rest2
          else if e == 't' then pStrGo fuel ('\t' :: acc) rest2
          else if e == 'u' then
            match rest2 with
            | h1 :: h2 :: h3 :: h4 :: rest3 =>
              match hexVal h1, hexVal h2, hexVal h3, hexVal h4 with
              | some a, some b, some c2, some d =>
                pStrGo fuel (Char.ofNat (((a * 16 + b) * 16 + c2) * 16 + d) :: acc) rest3
              | _, _, _, _ => none
            | _ => none
          else none
      else if c.toNat < 32 then none
      else pStrGo fuel (c :: acc) rest

/-- Optional fraction and exponent parts of a JSON number; a group is consumed
only when it matches fully, mirroring the number regex of Python's `json`. -/
def pNumTail (l : List Char) : List Char × List Char :=
  let fr : List Char × List Char :=
    match l with
    | '.' :: r =>
      let ds := r.takeWhile Char.isDigit
      if ds.isEmpty then ([], l) else ('.' :: ds, r.dropWhile Char.isDigit)
    | _ => ([], l)
  let l1 := fr.2
  let ex : List Char × List Char :=
    match l1 with
    | e :: r =>
      if e == 'e' || e == 'E' then
        match r with
        | s :: r2 =>
          if s == '+' || s == '-' then
            let ds := r2.takeWhile Char.isDigit
            if ds.isEmpty then ([], l1) else (e :: s :: ds, r2.dropWhile Char.isDigit)
          else
            let ds := r.takeWhile Char.isDigit
            if ds.isEmpty then ([], l1) else (e :: ds, r.dropWhile Char.isDigit)
        | [] => ([], l1)
      else ([], l1)
    | [] => ([], l1)
  (fr.1 ++ ex.1, ex.2)

/-- JSON number parser (input begins at an optional minus sign or digit);
the integer part is `0` or a nonzero digit followed by digits, as in the
number regex of Python's `json`.  The lexeme is kept verbatim. -/
def pNum (l : List Char) : Option (Json × List Char) :=
  let sg : List Char × List Char :=
    match l with
    | c :: r => if c == '-' then ([c], r) else ([], l)
    | [] => ([], l)
  match sg.2 with
  | [] => none
  | c :: r =>
    if c == '0' then
      let t := pNumTail r
      some (Json.num (String.mk (sg.1 ++ [c] ++ t.1)), t.2)
    else if c.isDigit then
      let ds := r.takeWhile Char.isDigit
      let r2 := r.dropWhile Char.isDigit
      let t := pNumTail r2
      some (Json.num (String.mk (sg.1 ++ (c :: ds) ++ t.1)), t.2)
    else none

mutual

/-- JSON value parser with fuel (fuel is always ample for the inputs used:
every recursive call consumes input). Accepts the `NaN`/`Infinity` extensions
of Python's `json.loads`. -/
def pVal : Nat → List Char → Option (Json × List Char)
  | 0, _ => none
  | Nat.succ fuel, l =>
    match skipWs l with
    | [] => none
    | c :: rest =>
      if c == '"' then
        match pStrGo (rest.length + 1) [] rest with
        | some (s, r) => some (Json.str s, r)
        | none => none
      else if c == 'n' then (stripLitC "ull".data rest).map (fun r => (Json.null, r))
      else if c == 't' then (stripLitC "rue".data rest).map (fun r => (Json.bool true, r))
      else if c == 'f' then (stripLitC "alse".data rest).map (fun r => (Json.bool false, r))
      else if c == 'N' then (stripLitC "aN".data rest).map (fun r => (Json.num "NaN", r))
      else if c == 'I' then (stripLitC "nfinity".data rest).map (fun r => (Json.num "Infinity", r))
      else if c == '-' && (stripLitC "Infinity".data rest).isSome then
        (stripLitC "Infinity".data rest).map (fun r => (Json.num "-Infinity", r))
      else if c == '[' then
        match skipWs rest with
        | ']' :: r => some (Json.arr [], r)
        | _ =>
          match pArrItems fuel rest with
          | some (vs, r) => some (Json.arr vs, r)
          | none => none
      else if c == lbrace then
        match skipWs rest with
        | ch :: r =>
          if ch == rbrace then some (Json.obj [], r)
          else
            match pObjItems fuel rest with
            | some (kvs, r2) => some (Json.obj kvs, r2)
            | none => none
        | [] => none
      else if c == '-' || c.isDigit then pNum (c :: rest)
      else none

/-- Comma-separated array elements up to the closing bracket. -/
def pArrItems : Nat → List Char → Option (List Json × List Char)
  | 0, _ => none
  | Nat.succ fuel, l =>
    match pVal fuel l with
    | none => none
    | some (v, r) =>
      match skipWs r with
      | ',' :: r2 =>
        match pArrItems fuel r2 with
        | some (vs, r3) => some (v :: vs, r3)
        | none => none
      | ']' :: r2 => some ([v], r2)
      | _ => none

/-- Comma-separated object members up to the closing brace. -/
def pObjItems : Nat → List Char → Option (List (String × Json) × List Char)
  | 0, _ => none
  | Nat.succ fuel, l =>
    match skipWs l with
    | '"' :: r =>
      match pStrGo (r.length + 1) [] r with
      | none => none
      | some (k, r1) =>
        match skipWs r1 with
        | ':' :: r2 =>
          match pVal fuel r2 with
          | none => none
          | some (v, r3) =>
            match skipWs r3 with
            | ',' :: r4 =>
              match pObjItems fuel r4 with
              | some (kvs, r5) => some ((k, v) :: kvs, r5)
              | none => none
            | ch :: r4 => if ch == rbrace then some ([(k, v)], r4) else none
            | [] => none
        | _ => none
    | _ => none

end

/-- `json.loads`: parse one JSON document with only whitespace around it;
`none` models a raised `json.JSONDecodeError`. -/
def jsonLoads (s : String) : Option Json :=
  match pVal (4 * s.data.length + 8) s.data with
  | some (v, rest) => if (skipWs rest).isEmpty then some v else none
  | none => none

/-- Last-wins association lookup, matching Python dict construction where a
later duplicate key overwrites an earlier one. -/
def lookupLast {α : Type} (m : List (String × α)) (k : String) : Option α :=
  match m with
  | [] => none
  | (k', v) :: rest =>
    match lookupLast rest k with
    | some v' => some v'
    | none => if k' == k then some v else none

deriving instance DecidableEq for Except

/-- Python `str()` of a parsed JSON value, as used when a non-list `source`
payload is interpolated into an f-string.  Number/container rendering is
approximate (e.g. float re-formatting), which no theorem below depends on. -/
def pyStr : Json → String
  | .str s => s
  | .null => "None"
  | .bool true => "True"
  | .bool false => "False"
  | .num lex => lex
  | .arr _ => "[...]"
  | .obj _ => "\x7b...\x7d"

/-- Python `"".join(source)`: concatenates string elements, raises `TypeError`
on any non-string element. -/
def joinStrs : List Json → Except PyErr String
  | [] => .ok ""
  | .str s :: rest => (joinStrs rest).map (fun r => s ++ r)
  | _ :: _ => .error PyErr.typeError

/-- Python `for cell in cells`: lists iterate their elements, strings iterate
their characters (as 1-character strings), dicts iterate their keys; other
values raise `TypeError`. -/
def iterCells : Json → Except PyErr (List Json)
  | .arr xs => .ok xs
  | .str s => .ok (s.data.map (fun c => Json.str (String.mk [c])))
  | .obj kvs => .ok (kvs.map (fun kv => Json.str kv.1))
  | _ => .error PyErr.typeError

/-- Body of the notebook cell loop: `cell.get` raises `AttributeError` on a
non-dict cell; the `"".join` happens before the cell-type dispatch, exactly as
in `parse_notebook`; cells of other types contribute nothing. -/
def processCell (cell : Json) : Except PyErr (Option String) :=
  match cell with
  | .obj kvs =>
    let cell_type := (lookupLast kvs "cell_type").getD (Json.str "")
    let sourceV := (lookupLast kvs "source").getD (Json.arr [])
    let contentE : Except PyErr String :=
      match sourceV with
      | .arr xs => joinStrs xs
      | v => .ok (pyStr v)
    match contentE with
    | .error e => .error e
    | .ok cell_content =>
      if jsonEqStr cell_type "markdown" then
        .ok (some ("# Markdown Cell\n" ++ cell_content ++ "\n"))
      else if jsonEqStr cell_type "code" then
        .ok (some ("# Code Cell\n```python\n" ++ cell_content ++ "\n```\n"))
      else .ok none
  | _ => .error PyErr.attributeError

/-- The notebook cell loop over all cells, collecting the extracted blocks. -/
def processCells : List Json → Except PyErr (List String)
  | [] => .ok []
  | c :: rest =>
    match processCell c with
    | .error e => .error e
    | .ok none => processCells rest
    | .ok (some s) => (processCells rest).map (fun l => s :: l)

/-- `notebook_parser.parse_notebook`: the `try` block catches only
`json.JSONDecodeError` (and the unreachable `KeyError`), so `AttributeError`
and `TypeError` raised on well-formed JSON of the wrong shape escape. -/
def parse_notebook (content : String) : Except PyErr String :=
  match jsonLoads content with
  | none => .ok content
  | some nb =>
    match nb with
    | .obj kvs =>
      let cells := (lookupLast kvs "cells").getD (Json.arr [])
      match iterCells cells with
      | .error e => .error e
      | .ok cs =>
        match processCells cs with
        | .error e => .error e
        | .ok extracted => .ok (joinNl extracted)
    | _ => .error PyErr.attributeError

/-- The scanning loop of `_extract_imports`: collect lines whose stripped form
starts with `import ` or `from `; a stripped line that is non-empty and not a
comment breaks the loop; blank and comment lines are skipped. -/
def importsLoop : List String → List String
  | [] => []
  | line :: rest =>
    let stripped := pyStrip line
    if pyStartsWith stripped "import " || pyStartsWith stripped "from " then
      line :: importsLoop rest
    else if stripped != "" && !pyStartsWith stripped "#" then []
    else importsLoop rest

/-- `document_processor._extract_imports`. -/
def _extract_imports (code : String) : String :=
  joinNl (importsLoop (pySplitLines code))

/-- A line collected by the import scan (stripped form starts with `import `
or `from `). -/
def isImportLine (line : String) : Bool :=
  pyStartsWith (pyStrip line) "import " || pyStartsWith (pyStrip line) "from "

/-- A line the import scan passes over: blank or a comment once stripped. -/
def isBlankOrComment (line : String) : Bool :=
  pyStrip line == "" || pyStartsWith (pyStrip line) "#"

/-- The chunk `_split_python_with_ast` builds for one definition node:
slice the file's lines by the node's span, optionally prepend the import
header, and record the metadata of lines 125-136 (note `has_imports` is set
to `True` unconditionally there). -/
def astChunkOfNode (content : String) (meta : Meta) (node : PyNode) : Document :=
  let lines := pySplitLines content
  let start_line := node.lineno - 1
  let end_line := node.end_lineno
  let code0 := joinNl ((lines.drop start_line).take (end_line - start_line))
  let imports := _extract_imports content
  let code :=
    if imports != "" then
      "# Imports from " ++ meta.source ++ "\n" ++ imports ++ "\n\n" ++ code0
    else code0
  { page_content := code,
    metadata := { meta with
      chunk_type := some "ast_node",
      node_type := some (if node.isClass then "class" else "function"),
      node_name := some node.name,
      start_line := some (start_line + 1),
      end_line := some end_line,
      has_imports := true } }

/-- `document_processor._split_python_with_ast`: `parsed` is the definition
node list from `ast.walk` (`none` models a caught `SyntaxError`, returning
`[]`); a chunk is kept only when its length is within 1.5x the target size
(`len(code) <= chunk_size * 1.5`, i.e. `2*len <= 3*chunk_size`); oversized
nodes are silently skipped. -/
def _split_python_with_ast (content : String) (meta : Meta) (chunk_size : Nat)
    (parsed : Option (List PyNode)) : List Document :=
  match parsed with
  | none => []
  | some nodes =>
    (nodes.map (astChunkOfNode content meta)).filter
      (fun c => decide (2 * c.page_content.length ≤ 3 * chunk_size))

/-- `document_processor._build_import_map`: source file -> non-empty import
header, for `.py` files only. -/
def _build_import_map (documents : List Document) : List (String × String) :=
  documents.filterMap (fun d =>
    let source := d.metadata.source
    if pyEndsWith source ".py" then
      let imports := _extract_imports d.page_content
      if imports != "" then some (source, imports) else none
    else none)

/-- Per-chunk body of `_enrich_with_imports`: skip chunks already flagged
`has_imports`; otherwise prepend the file's import header when the map holds a
non-empty entry for the chunk's source, setting `has_imports`. -/
def enrichChunk (import_map : List (String × String)) (chunk : Document) : Document :=
  if chunk.metadata.has_imports then chunk
  else
    let source := chunk.metadata.source
    match lookupLast import_map source with
    | none => chunk
    | some imp =>
      if imp != "" then
        { page_content := "# Imports from " ++ source ++ "\n" ++ imp ++ "\n\n" ++ chunk.page_content,
          metadata := { chunk.metadata with has_imports := true } }
      else chunk

/-- `document_processor._enrich_with_imports`. -/
def _enrich_with_imports (chunks : List Document) (import_map : List (String × String)) :
    List Document :=
  chunks.map (enrichChunk import_map)

/-- Modelled from the spec: the Generic Splitter's piece decomposition.
The langchain `RecursiveCharacterTextSplitter` that `_language_aware_split`
and `_basic_split` configure is library code absent from the repository, so
the splitter is modelled from spec section 4.2: text is cut at the prioritized
separators into atomic pieces — here line breaks, then single characters for
lines longer than the target (the paragraph-break and space separator levels
only refine boundary positions and are abstracted).  `linesKeepNl` splits into
lines with their terminating newline kept, so pieces concatenate to the input. -/
def linesKeepNl : List Char → List (List Char)
  | [] => []
  | c :: rest =>
    if c == '\n' then [c] :: linesKeepNl rest
    else
      match linesKeepNl rest with
      | [] => [[c]]
      | l :: ls => (c :: l) :: ls

/-- Modelled from the spec: chop one atomic piece into slices of at most
`max chunk_size 1` characters (the empty-string separator level); the fuel
argument is instantiated with the piece's length, which every step decreases. -/
def chopGo (chunk_size : Nat) : Nat → List Char → List (List Char)
  | _, [] => []
  | 0, _ :: _ => []
  | Nat.succ fuel, c :: cs =>
    (c :: cs).take (max chunk_size 1) :: chopGo chunk_size fuel ((c :: cs).drop (max chunk_size 1))

/-- Modelled from the spec: chop one atomic piece into bounded slices. -/
def chopC (chunk_size : Nat) (l : List Char) : List (List Char) :=
  chopGo chunk_size l.length l

/-- Modelled from the spec: all pieces of one file. -/
def piecesC (content : List Char) (chunk_size : Nat) : List (List Char) :=
  (linesKeepNl content).flatMap (chopC chunk_size)

/-- Modelled from the spec: greedy merge of consecutive pieces into chunks
bounded by `chunk_size` (an oversized atomic piece becomes its own chunk). -/
def mergeAuxC (chunk_size : Nat) (acc : List Char) : List (List Char) → List (List Char)
  | [] => if acc.isEmpty then [] else [acc]
  | p :: rest =>
    if acc.isEmpty then mergeAuxC chunk_size p rest
    else if acc.length + p.length ≤ chunk_size then mergeAuxC chunk_size (acc ++ p) rest
    else acc :: mergeAuxC chunk_size p rest

/-- The last `n` characters of a chunk (the trailing context shared with the
next chunk). -/
def takeRightC (n : Nat) (l : List Char) : List Char :=
  l.drop (l.length - n)

/-- Modelled from the spec: prepend to every chunk after the first the
`chunk_overlap` trailing characters of the previous core chunk. -/
def addOverlapAuxC (ov : Nat) (prev : List Char) : List (List Char) → List (List Char)
  | [] => []
  | c :: rest => (takeRightC ov prev ++ c) :: addOverlapAuxC ov c rest

/-- Modelled from the spec: the overlap pass over the merged core chunks. -/
def addOverlapC (ov : Nat) : List (List Char) → List (List Char)
  | [] => []
  | c :: rest => c :: addOverlapAuxC ov c rest

/-- Modelled from the spec: the Generic Splitter on one file's content. -/
def genericSplitChars (content : List Char) (chunk_size chunk_overlap : Nat) :
    List (List Char) :=
  addOverlapC chunk_overlap (mergeAuxC chunk_size [] (piecesC content chunk_size))

/-- Remove the overlapped region from every chunk after the first: drop from
each chunk the prefix shared with the previous chunk's core (its length is
`min ov` the previous core's length, reconstructed by recursion). -/
def removeOverlapAuxC (ov : Nat) (prevCore : Nat) : List (List Char) → List (List Char)
  | [] => []
  | c :: rest =>
    let core := c.drop (min ov prevCore)
    core :: removeOverlapAuxC ov core.length rest

/-- Remove the configured overlap shared between consecutive chunks. -/
def removeOverlapC (ov : Nat) (chunks : List (List Char)) : List (List Char) :=
  removeOverlapAuxC ov 0 chunks

/-- One document through the modelled Generic Splitter: each chunk keeps the
document's metadata, as `splitter.split_documents` does. -/
def genericSplitDoc (chunk_size chunk_overlap : Nat) (doc : Document) : List Document :=
  (genericSplitChars doc.page_content.data chunk_size chunk_overlap).map
    (fun l => { page_content := String.mk l, metadata := doc.metadata })

/-- `document_processor._language_aware_split`: picks a language-specific
separator set by extension before splitting; in the model the separator choice
is abstracted (it moves chunk boundaries only), so every document goes through
the one modelled splitter. -/
def _language_aware_split (documents : List Document) (chunk_size chunk_overlap : Nat) :
    List Document :=
  documents.flatMap (genericSplitDoc chunk_size chunk_overlap)

/-- `document_processor._basic_split`: the same recursive character splitting
with the default separator list. -/
def _basic_split (documents : List Document) (chunk_size chunk_overlap : Nat) :
    List Document :=
  documents.flatMap (genericSplitDoc chunk_size chunk_overlap)

/-- The notebook-preprocessing test of `_hybrid_split` line 293:
`ext == '.ipynb' and is_notebook_file(source)`. -/
def isNotebookDoc (doc : Document) : Bool :=
  (extOf doc.metadata.source == ".ipynb") && is_notebook_file doc.metadata.source

/-- The splitting stage of the per-file body of `_hybrid_split` (lines
301-323), applied to the possibly notebook-preprocessed document: the AST
attempt for `.py` files, the post-hoc oversized check over the returned
structural chunks, and the language-aware fallback. -/
def splitStage (pyParse : String → Option (List PyNode))
    (chunk_size chunk_overlap : Nat) (ext : String) (doc : Document) : List Document :=
  if ext == ".py" then
    let ast_chunks :=
      _split_python_with_ast doc.page_content doc.metadata chunk_size (pyParse doc.page_content)
    if ast_chunks.isEmpty then
      _language_aware_split [doc] chunk_size chunk_overlap
    else
      let oversized :=
        ast_chunks.filter (fun c => decide (3 * chunk_size < 2 * c.page_content.length))
      if oversized.isEmpty then ast_chunks
      else _language_aware_split [doc] chunk_size chunk_overlap
  else _language_aware_split [doc] chunk_size chunk_overlap

/-- The per-file body of `_hybrid_split` (lines 288-323): notebook
preprocessing, then the splitting stage.  An uncaught exception from
`parse_notebook` propagates. -/
def hybridProcessDoc (pyParse : String → Option (List PyNode))
    (chunk_size chunk_overlap : Nat) (doc0 : Document) : Except PyErr (List Document) :=
  let ext := extOf doc0.metadata.source
  if isNotebookDoc doc0 then
    match parse_notebook doc0.page_content with
    | .error e => .error e
    | .ok t =>
      .ok (splitStage pyParse chunk_size chunk_overlap ext
        { page_content := t,
          metadata := { doc0.metadata with preprocessed := some "notebook" } })
  else .ok (splitStage pyParse chunk_size chunk_overlap ext doc0)

/-- The document loop of `_hybrid_split`: an exception raised for one file
aborts the whole batch (there is no per-file isolation in the code). -/
def hybridDocs (pyParse : String → Option (List PyNode)) (chunk_size chunk_overlap : Nat) :
    List Document → Except PyErr (List Document)
  | [] => .ok []
  | d :: rest =>
    match hybridProcessDoc pyParse chunk_size chunk_overlap d with
    | .error e => .error e
    | .ok cks =>
      match hybridDocs pyParse chunk_size chunk_overlap rest with
      | .error e => .error e
      | .ok more => .ok (cks ++ more)

/-- `document_processor._hybrid_split`: import map built from the original
documents, per-file splitting, then one global enrichment pass. -/
def _hybrid_split (pyParse : String → Option (List PyNode)) (documents : List Document)
    (chunk_size chunk_overlap : Nat) : Except PyErr (List Document) :=
  match hybridDocs pyParse chunk_size chunk_overlap documents with
  | .error e => .error e
  | .ok all_chunks => .ok (_enrich_with_imports all_chunks (_build_import_map documents))

/-- The content a file effectively contributes to splitting: the normalizer's
output for notebook files, the raw content otherwise. -/
def effectiveContent (doc : Document) : Except PyErr String :=
  if isNotebookDoc doc then parse_notebook doc.page_content else .ok doc.page_content

/-- Slice a file's content by 1-indexed inclusive line bounds. -/
def sliceLines (content : String) (s e : Nat) : String :=
  joinNl (((pySplitLines content).drop (s - 1)).take (e - (s - 1)))

/-- The import block `_split_python_with_ast` prepends (comment line naming
the origin file, the import header, a blank separator line), empty when the
file has no import header. -/
def importHeaderBlock (content : String) (src : String) : String :=
  let imports := _extract_imports content
  if imports != "" then "# Imports from " ++ src ++ "\n" ++ imports ++ "\n\n" else ""

/-! Concrete inputs used by witnesses, counterexamples and failing-input
evaluations.  The `pyParse` oracles record what CPython's `ast.parse` +
`ast.walk` produce for the specific file contents involved. -/

/-- Eighty `x` characters, the body filler of the oversized function `g`. -/
def xs80 : String := String.mk (List.replicate 80 'x')

/-- A Python file with a small function `f` (17 characters) and an oversized
function `g` (102 characters): `def f():\n    pass\n\ndef g():\n    return
"xxxx...x"`. -/
def content1 : String := "def f():\n    pass\n\ndef g():\n    return \"" ++ xs80 ++ "\""

/-- The `ast.walk` node for `f` in `content1` (lines 1-2). -/
def nodeF : PyNode := { name := "f", isClass := false, lineno := 1, end_lineno := 2 }

/-- The `ast.walk` node for `g` in `content1` (lines 4-5). -/
def nodeG : PyNode := { name := "g", isClass := false, lineno := 4, end_lineno := 5 }

/-- Parse oracle for `content1`: CPython parses it successfully and `ast.walk`
yields the definition nodes `f` then `g`. -/
def pyParse1 : String → Option (List PyNode) :=
  fun s => if s == content1 then some [nodeF, nodeG] else none

/-- Loader metadata for the file `a.py`. -/
def metaA : Meta := { source := "a.py" }

/-- The document holding `content1`. -/
def doc1 : Document := { page_content := content1, metadata := metaA }

/-- The structural chunk the splitter builds for `f` in `content1`. -/
def chunkF : Document :=
  { page_content := "def f():\n    pass",
    metadata := { metaA with
                  chunk_type := some "ast_node", node_type := some "function",
                  node_name := some "f", start_line := some 1, end_line := some 2,
                  has_imports := true } }

/-- A notebook-named file whose content is the valid JSON array `[]`. -/
def docNb : Document := { page_content := "[]", metadata := { source := "nb.ipynb" } }

/-- A well-formed markdown file. -/
def docMd : Document := { page_content := "hello", metadata := { source := "ok.md" } }

/-- Parse oracle for batches with no parseable Python file. -/
def pyParseNone : String → Option (List PyNode) := fun _ => none

/-- A notebook file whose non-empty content is a valid notebook JSON object
with an empty cell list. -/
def docNbEmpty : Document :=
  { page_content := "\x7b\"cells\": []\x7d", metadata := { source := "e.ipynb" } }

/-- Loader metadata for the file `b.py`. -/
def metaB : Meta := { source := "b.py" }

/-- The structural chunk for `def f():\n    pass` in a file with no imports. -/
def chunkB : Document :=
  { page_content := "def f():\n    pass",
    metadata := { metaB with
                  chunk_type := some "ast_node", node_type := some "function",
                  node_name := some "f", start_line := some 1, end_line := some 2,
                  has_imports := true } }

/-- A file whose import lines are interleaved with a comment line. -/
def c9input : String := "import os\n# c\nimport sys\nx = 1"

/-- A Python file with an import header and one function. -/
def c6content : String := "import os\n\ndef add(a, b):\n    return a + b"

/-- Loader metadata for the file `m.py`. -/
def metaM : Meta := { source := "m.py" }

/-- The `ast.walk` node for `add` in `c6content` (lines 3-4). -/
def nodeAdd : PyNode := { name := "add", isClass := false, lineno := 3, end_lineno := 4 }

/-- A Python file with an import header and a function `h`. -/
def c2content : String := "import os\ndef h():\n    pass"

/-- Loader metadata for the file `w.py`. -/
def metaW : Meta := { source := "w.py" }

/-- The `ast.walk` node for `h` in `c2content` (lines 2-3). -/
def nodeH : PyNode := { name := "h", isClass := false, lineno := 2, end_lineno := 3 }

/-- A Python file with only a module-level assignment (no definitions). -/
def docPyW : Document := { page_content := "x = 1", metadata := { source := "p.py" } }

/-- Parse oracle for `docPyW`: CPython parses `x = 1` successfully and
`ast.walk` finds no definition nodes. -/
def pyParseW : String → Option (List PyNode) :=
  fun s => if s == "x = 1" then some [] else none

/-! Helper lemmas about the modelled Generic Splitter. -/

theorem chopGo_flatten (m : Nat) :
    ∀ (fuel : Nat) (l : List Char), l.length ≤ fuel → (chopGo m fuel l).flatten = l := by
  intro fuel
  induction fuel with
  | zero =>
    intro l hl
    cases l with
    | nil => rfl
    | cons c cs => simp at hl
  | succ fuel ih =>
    intro l hl
    cases l with
    | nil => rfl
    | cons c cs =>
      simp only [chopGo, List.flatten_cons]
      rw [ih]
      · exact List.take_append_drop _ _
      · have hm : 1 ≤ max m 1 := Nat.le_max_right m 1
        simp only [List.length_drop, List.length_cons]
        simp only [List.length_cons] at hl
        omega

theorem chopC_flatten (m : Nat) (l : List Char) : (chopC m l).flatten = l :=
  chopGo_flatten m l.length l (Nat.le_refl _)

theorem linesKeepNl_flatten : ∀ l : List Char, (linesKeepNl l).flatten = l := by
  intro l
  induction l with
  | nil => rfl
  | cons c cs ih =>
    rw [linesKeepNl]
    split
    · simpa using ih
    · split
      · next heq =>
        rw [heq] at ih
        simp only [List.flatten_nil] at ih
        simp [← ih]
      · next g gs heq =>
        rw [heq] at ih
        simp only [List.flatten_cons] at ih ⊢
        simp [← ih]

theorem piecesC_flatten (l : List Char) (m : Nat) : (piecesC l m).flatten = l := by
  unfold piecesC
  have h : ∀ gs : List (List Char), (gs.flatMap (chopC m)).flatten = gs.flatten := by
    intro gs
    induction gs with
    | nil => rfl
    | cons g rest ih => simp [List.flatMap_cons, ih, chopC_flatten]
  rw [h, linesKeepNl_flatten]

theorem mergeAuxC_flatten (m : Nat) :
    ∀ (ps : List (List Char)) (acc : List Char),
      (mergeAuxC m acc ps).flatten = acc ++ ps.flatten := by
  intro ps
  induction ps with
  | nil =>
    intro acc
    rw [mergeAuxC]
    split
    · next h => simp [List.isEmpty_iff.mp h]
    · simp
  | cons p rest ih =>
    intro acc
    rw [mergeAuxC]
    split
    · next h => simp [List.isEmpty_iff.mp h, ih]
    · split
      · rw [ih]
        simp [List.append_assoc]
      · simp [ih]

theorem takeRightC_length (n : Nat) (l : List Char) :
    (takeRightC n l).length = min n l.length := by
  simp only [takeRightC, List.length_drop]
  omega

theorem removeOverlap_addOverlap (ov : Nat) :
    ∀ (cores : List (List Char)) (prev : List Char),
      removeOverlapAuxC ov prev.length (addOverlapAuxC ov prev cores) = cores := by
  intro cores
  induction cores with
  | nil => intro prev; rfl
  | cons c rest ih =>
    intro prev
    have h1 : (takeRightC ov prev ++ c).drop (min ov prev.length) = c := by
      rw [← takeRightC_length ov prev]
      exact List.drop_left _ _
    simp only [addOverlapAuxC, removeOverlapAuxC, h1]
    rw [ih]

theorem stringDataNilIff (s : String) : s.data = [] ↔ s = "" := by
  cases s with
  | mk d =>
    constructor
    · intro h
      simp only at h
      rw [h]
    · intro h
      rw [h]

theorem linesKeepNl_ne_nil {l : List Char} (h : l ≠ []) : linesKeepNl l ≠ [] := by
  cases l with
  | nil => exact absurd rfl h
  | cons c cs =>
    rw [linesKeepNl]
    split
    · simp
    · split <;> simp

theorem linesKeepNl_mem_ne_nil : ∀ (l : List Char) (g : List Char), g ∈ linesKeepNl l → g ≠ [] := by
  intro l
  induction l with
  | nil => intro g hg; simp [linesKeepNl] at hg
  | cons c cs ih =>
    intro g hg
    rw [linesKeepNl] at hg
    split at hg
    · rcases List.mem_cons.mp hg with h | h
      · subst h; simp
      · exact ih g h
    · split at hg
      · next heq =>
        rcases List.mem_cons.mp hg with h | h
        · subst h; simp
        · simp at h
      · next g' gs heq =>
        rcases List.mem_cons.mp hg with h | h
        · subst h; simp
        · exact ih g (heq ▸ List.mem_cons_of_mem g' h)

theorem chopGo_mem_ne_nil (m : Nat) :
    ∀ (fuel : Nat) (l p : List Char), p ∈ chopGo m fuel l → p ≠ [] := by
  intro fuel
  induction fuel with
  | zero =>
    intro l p hp
    cases l <;> simp [chopGo] at hp
  | succ fuel ih =>
    intro l p hp
    cases l with
    | nil => simp [chopGo] at hp
    | cons c cs =>
      rw [chopGo] at hp
      rcases List.mem_cons.mp hp with h | h
      · subst h
        have h1 : 1 ≤ max m 1 := Nat.le_max_right m 1
        cases hmx : max m 1 with
        | zero => omega
        | succ k => simp [hmx, List.take]
      · exact ih _ p h

theorem chopC_ne_nil {m : Nat} {l : List Char} (h : l ≠ []) : chopC m l ≠ [] := by
  cases l with
  | nil => exact absurd rfl h
  | cons c cs => simp [chopC, chopGo]

theorem piecesC_ne_nil {l : List Char} {m : Nat} (h : l ≠ []) : piecesC l m ≠ [] := by
  unfold piecesC
  cases hg : linesKeepNl l with
  | nil => exact absurd hg (linesKeepNl_ne_nil h)
  | cons g gs =>
    have hgne : g ≠ [] := linesKeepNl_mem_ne_nil l g (hg ▸ List.mem_cons_self g gs)
    have hch := @chopC_ne_nil m g hgne
    simp only [List.flatMap_cons]
    intro habs
    rcases List.append_eq_nil.mp habs with ⟨h1, _⟩
    exact hch h1

theorem piecesC_mem_ne_nil {l : List Char} {m : Nat} :
    ∀ p ∈ piecesC l m, p ≠ [] := by
  intro p hp
  unfold piecesC at hp
  obtain ⟨g, _, hpg⟩ := List.mem_flatMap.mp hp
  exact chopGo_mem_ne_nil m g.length g p hpg

theorem mergeAuxC_ne_nil_of_acc (m : Nat) :
    ∀ (ps : List (List Char)) (acc : List Char), acc ≠ [] → mergeAuxC m acc ps ≠ [] := by
  intro ps
  induction ps with
  | nil =>
    intro acc hacc
    rw [mergeAuxC]
    split
    · next h => exact absurd (List.isEmpty_iff.mp h) hacc
    · simp
  | cons p rest ih =>
    intro acc hacc
    rw [mergeAuxC]
    split
    · next h => exact absurd (List.isEmpty_iff.mp h) hacc
    · split
      · exact ih (acc ++ p) (by simp [hacc])
      · simp

theorem mergeAuxC_ne_nil (m : Nat) (ps : List (List Char)) (hne : ps ≠ [])
    (hmem : ∀ p ∈ ps, p ≠ []) : mergeAuxC m [] ps ≠ [] := by
  cases ps with
  | nil => exact absurd rfl hne
  | cons p rest =>
    rw [mergeAuxC]
    split
    · exact mergeAuxC_ne_nil_of_acc m rest p (hmem p (List.mem_cons_self p rest))
    · split
      · exact mergeAuxC_ne_nil_of_acc m rest _ (by
          simp only [List.isEmpty_nil] at *
          simp [hmem p (List.mem_cons_self p rest)])
      · simp

theorem genericSplitChars_ne_nil {l : List Char} {m ov : Nat} (h : l ≠ []) :
    genericSplitChars l m ov ≠ [] := by
  unfold genericSplitChars
  have hmerge : mergeAuxC m [] (piecesC l m) ≠ [] :=
    mergeAuxC_ne_nil m (piecesC l m) (piecesC_ne_nil h) piecesC_mem_ne_nil
  cases hm : mergeAuxC m [] (piecesC l m) with
  | nil => exact absurd hm hmerge
  | cons c rest => simp [addOverlapC]

theorem genericSplitDoc_ne_nil {doc : Document} {m ov : Nat} (h : doc.page_content ≠ "") :
    genericSplitDoc m ov doc ≠ [] := by
  unfold genericSplitDoc
  have hdata : doc.page_content.data ≠ [] := by
    intro habs
    exact h ((stringDataNilIff doc.page_content).mp habs)
  have := @genericSplitChars_ne_nil doc.page_content.data m ov hdata
  simp [this]

theorem genericSplitDoc_metadata {doc : Document} {m ov : Nat} :
    ∀ c ∈ genericSplitDoc m ov doc, c.metadata = doc.metadata := by
  intro c hc
  unfold genericSplitDoc at hc
  obtain ⟨l, _, rfl⟩ := List.mem_map.mp hc
  rfl

theorem genericSplitChars_coverage (l : List Char) (m ov : Nat) :
    (removeOverlapC ov (genericSplitChars l m ov)).flatten = l := by
  unfold genericSplitChars removeOverlapC
  have hflat : (mergeAuxC m [] (piecesC l m)).flatten = l := by
    rw [mergeAuxC_flatten]
    simp [piecesC_flatten]
  cases hm : mergeAuxC m [] (piecesC l m) with
  | nil =>
    rw [hm] at hflat
    simpa [addOverlapC, removeOverlapAuxC] using hflat
  | cons c rest =>
    rw [hm] at hflat
    simp only [addOverlapC, removeOverlapAuxC, Nat.min_zero, List.drop_zero]
    rw [removeOverlap_addOverlap]
    simpa using hflat

/-! Helper lemmas about the structural splitter and the hybrid pipeline. -/

theorem strEqOfData {a b : String} (h : a.data = b.data) : a = b :=
  String.ext h

theorem mem_split_python {content : String} {meta : Meta} {cs : Nat}
    {parsed : Option (List PyNode)} {c : Document}
    (hc : c ∈ _split_python_with_ast content meta cs parsed) :
    ∃ nodes, parsed = some nodes ∧
      ∃ node ∈ nodes, c = astChunkOfNode content meta node ∧
        2 * c.page_content.length ≤ 3 * cs := by
  unfold _split_python_with_ast at hc
  cases parsed with
  | none => simp at hc
  | some nodes =>
    simp only at hc
    obtain ⟨hmem, hsize⟩ := List.mem_filter.mp hc
    obtain ⟨node, hn, hcn⟩ := List.mem_map.mp hmem
    exact ⟨nodes, rfl, node, hn, hcn.symm, of_decide_eq_true hsize⟩

theorem split_python_size {content : String} {meta : Meta} {cs : Nat}
    {parsed : Option (List PyNode)} :
    ∀ c ∈ _split_python_with_ast content meta cs parsed,
      2 * c.page_content.length ≤ 3 * cs := by
  intro c hc
  obtain ⟨_, _, _, _, _, hsize⟩ := mem_split_python hc
  exact hsize

theorem astChunkOfNode_fields (content : String) (meta : Meta) (node : PyNode) :
    (astChunkOfNode content meta node).metadata.start_line = some (node.lineno - 1 + 1) ∧
    (astChunkOfNode content meta node).metadata.end_line = some node.end_lineno ∧
    (astChunkOfNode content meta node).metadata.has_imports = true ∧
    (astChunkOfNode content meta node).metadata.source = meta.source := by
  unfold astChunkOfNode
  exact ⟨rfl, rfl, rfl, rfl⟩

theorem astChunkOfNode_span (content : String) (meta : Meta) (node : PyNode) :
    (astChunkOfNode content meta node).page_content =
      importHeaderBlock content meta.source ++
        sliceLines content (node.lineno - 1 + 1) node.end_lineno := by
  unfold astChunkOfNode importHeaderBlock sliceLines
  simp only [Nat.add_sub_cancel]
  split
  · apply strEqOfData
    simp [String.data_append, List.append_assoc]
  · apply strEqOfData
    simp [String.data_append]


theorem enrichChunk_metadata_source (m : List (String × String)) (c : Document) :
    (enrichChunk m c).metadata.source = c.metadata.source := by
  simp only [enrichChunk]
  split
  · rfl
  · split
    · rfl
    · split
      · rfl
      · rfl

theorem mem_lang_aware_single {doc c : Document} {cs ov : Nat}
    (hc : c ∈ _language_aware_split [doc] cs ov) : c.metadata = doc.metadata := by
  simp only [_language_aware_split, List.flatMap_cons, List.flatMap_nil,
    List.append_nil] at hc
  exact genericSplitDoc_metadata c hc

theorem lang_aware_single_ne_nil {doc : Document} {cs ov : Nat}
    (h : doc.page_content ≠ "") : _language_aware_split [doc] cs ov ≠ [] := by
  simp only [_language_aware_split, List.flatMap_cons, List.flatMap_nil, List.append_nil]
  exact genericSplitDoc_ne_nil h

theorem splitStage_source (pyParse : String → Option (List PyNode)) (cs ov : Nat)
    (ext : String) (doc : Document) :
    ∀ c ∈ splitStage pyParse cs ov ext doc, c.metadata.source = doc.metadata.source := by
  intro c hc
  simp only [splitStage] at hc
  split at hc
  · split at hc
    · exact congrArg Meta.source (mem_lang_aware_single hc)
    · split at hc
      · obtain ⟨_, _, _, _, hcn, _⟩ := mem_split_python hc
        rw [hcn]
        exact (astChunkOfNode_fields _ _ _).2.2.2
      · exact congrArg Meta.source (mem_lang_aware_single hc)
  · exact congrArg Meta.source (mem_lang_aware_single hc)

theorem splitStage_ne_nil (pyParse : String → Option (List PyNode)) (cs ov : Nat)
    (ext : String) (doc : Document) (h : doc.page_content ≠ "") :
    splitStage pyParse cs ov ext doc ≠ [] := by
  simp only [splitStage]
  split
  · split
    · exact lang_aware_single_ne_nil h
    · split
      · next hne _ =>
        intro habs
        rw [habs] at hne
        simp at hne
      · exact lang_aware_single_ne_nil h
  · exact lang_aware_single_ne_nil h

theorem hybridProcessDoc_source {pyParse : String → Option (List PyNode)}
    {cs ov : Nat} {d : Document} {lst : List Document}
    (h : hybridProcessDoc pyParse cs ov d = .ok lst) :
    ∀ c ∈ lst, c.metadata.source = d.metadata.source := by
  intro c hc
  unfold hybridProcessDoc at h
  split at h
  · cases hp : parse_notebook d.page_content with
    | error e => rw [hp] at h; simp at h
    | ok t =>
      rw [hp] at h
      simp only [Except.ok.injEq] at h
      subst h
      have h2 := splitStage_source pyParse cs ov (extOf d.metadata.source) _ c hc
      exact h2
  · simp only [Except.ok.injEq] at h
    subst h
    exact splitStage_source pyParse cs ov (extOf d.metadata.source) d c hc

theorem hybridProcessDoc_ne_nil {pyParse : String → Option (List PyNode)}
    {cs ov : Nat} {d : Document} {lst : List Document} {t : String}
    (h : hybridProcessDoc pyParse cs ov d = .ok lst)
    (ht : effectiveContent d = .ok t) (hne : t ≠ "") : lst ≠ [] := by
  unfold hybridProcessDoc at h
  unfold effectiveContent at ht
  split at h
  · next hnb =>
    rw [if_pos hnb] at ht
    cases hp : parse_notebook d.page_content with
    | error e => rw [hp] at h; simp at h
    | ok t' =>
      rw [hp] at h ht
      simp only [Except.ok.injEq] at h ht
      subst h
      subst ht
      exact splitStage_ne_nil _ _ _ _ _ hne
  · next hnb =>
    rw [if_neg hnb] at ht
    simp only [Except.ok.injEq] at h ht
    subst h
    subst ht
    exact splitStage_ne_nil _ _ _ _ _ hne

theorem hybridDocs_mem {pyParse : String → Option (List PyNode)} {cs ov : Nat} :
    ∀ {docs : List Document} {all : List Document},
      hybridDocs pyParse cs ov docs = .ok all →
      ∀ d ∈ docs, ∃ lst, hybridProcessDoc pyParse cs ov d = .ok lst ∧ ∀ c ∈ lst, c ∈ all := by
  intro docs
  induction docs with
  | nil => intro all _ d hd; simp at hd
  | cons d0 rest ih =>
    intro all hall d hd
    rw [hybridDocs] at hall
    cases hp : hybridProcessDoc pyParse cs ov d0 with
    | error e => rw [hp] at hall; simp at hall
    | ok cks =>
      rw [hp] at hall
      simp only at hall
      cases hr : hybridDocs pyParse cs ov rest with
      | error e => rw [hr] at hall; simp at hall
      | ok more =>
        rw [hr] at hall
        simp only [Except.ok.injEq] at hall
        subst hall
        rcases List.mem_cons.mp hd with hdd | hdd
        · subst hdd
          exact ⟨cks, hp, fun c hc => List.mem_append_left more hc⟩
        · obtain ⟨lst, h1, h2⟩ := ih hr d hdd
          exact ⟨lst, h1, fun c hc => List.mem_append_right cks (h2 c hc)⟩

theorem astChunkOfNode_content_imports {content : String} {meta : Meta} {node : PyNode}
    (h : _extract_imports content ≠ "") :
    (astChunkOfNode content meta node).page_content =
      "# Imports from " ++ meta.source ++ "\n" ++ _extract_imports content ++ "\n\n" ++
        joinNl (((pySplitLines content).drop (node.lineno - 1)).take
          (node.end_lineno - (node.lineno - 1))) := by
  simp only [astChunkOfNode]
  rw [if_pos (bne_iff_ne.mpr h)]

theorem split_python_filter_oversized (content : String) (meta : Meta) (chunk_size : Nat)
    (parsed : Option (List PyNode)) :
    (_split_python_with_ast content meta chunk_size parsed).filter
      (fun c => decide (3 * chunk_size < 2 * c.page_content.length)) = [] := by
  apply List.filter_eq_nil_iff.mpr
  intro c hc
  have hle := split_python_size c hc
  simp only [decide_eq_true_eq]
  omega

/-- Claim C7: for every single file split by the (spec-modelled) Generic
Splitter, concatenating its output chunks in order after removing the
configured overlap shared between consecutive chunks reproduces the original
file content exactly, with no content lost. -/
theorem generic_split_coverage (doc : Document) (chunk_size chunk_overlap : Nat) :
    (removeOverlapC chunk_overlap
        ((_language_aware_split [doc] chunk_size chunk_overlap).map
          (fun c => c.page_content.data))).flatten = doc.page_content.data := by
  simp only [_language_aware_split, List.flatMap_cons, List.flatMap_nil, List.append_nil,
    genericSplitDoc, List.map_map]
  have hcomp : ((fun c : Document => c.page_content.data) ∘
      fun l => ({ page_content := String.mk l, metadata := doc.metadata } : Document)) = id := by
    funext l
    rfl
  rw [hcomp, List.map_id]
  exact genericSplitChars_coverage _ _ _

theorem enrich_idem_chunk (m : List (String × String)) (c : Document) :
    enrichChunk m (enrichChunk m c) = enrichChunk m c := by
  by_cases h : c.metadata.has_imports = true
  · have h1 : enrichChunk m c = c := by
      simp only [enrichChunk, if_pos h]
    rw [h1, h1]
  · cases hl : lookupLast m c.metadata.source with
    | none =>
      have h1 : enrichChunk m c = c := by
        simp only [enrichChunk, if_neg h, hl]
      rw [h1, h1]
    | some imp =>
      by_cases hi : (imp != "") = true
      · have h1 : enrichChunk m c =
            { page_content :=
                "# Imports from " ++ c.metadata.source ++ "\n" ++ imp ++ "\n\n" ++ c.page_content,
              metadata := { c.metadata with has_imports := true } } := by
          simp only [enrichChunk, if_neg h, hl, if_pos hi]
        rw [h1]
        simp only [enrichChunk]
        rfl
      · have h1 : enrichChunk m c = c := by
          simp only [enrichChunk, if_neg h, hl, if_neg hi]
        rw [h1, h1]

/-- Claim C8: the Import Enricher is idempotent — for every chunk list and
every import map, applying `_enrich_with_imports` twice equals applying it
once, because a chunk with `has_imports` already set is left untouched. -/
theorem enrich_with_imports_idempotent (chunks : List Document)
    (import_map : List (String × String)) :
    _enrich_with_imports (_enrich_with_imports chunks import_map) import_map =
      _enrich_with_imports chunks import_map := by
  unfold _enrich_with_imports
  rw [List.map_map]
  congr 1
  funext c
  exact enrich_idem_chunk import_map c

/-- Claim C6: for every structural chunk produced from a parseable Python
file, slicing the original content by the chunk's `start_line`/`end_line`
metadata (1-indexed, inclusive) reproduces exactly the chunk's content minus
the prepended import block and its comment/blank-line header, if any. -/
theorem structural_span_correct {content : String} {meta : Meta} {chunk_size : Nat}
    {nodes : List PyNode} {c : Document}
    (hc : c ∈ _split_python_with_ast content meta chunk_size (some nodes)) :
    ∃ s e, c.metadata.start_line = some s ∧ c.metadata.end_line = some e ∧
      c.page_content = importHeaderBlock content meta.source ++ sliceLines content s e := by
  obtain ⟨nodes', _, node, hn, hcn, _⟩ := mem_split_python hc
  subst hcn
  exact ⟨node.lineno - 1 + 1, node.end_lineno,
    (astChunkOfNode_fields content meta node).1,
    (astChunkOfNode_fields content meta node).2.1,
    astChunkOfNode_span content meta node⟩

/-- Witness for claim C6 at the file `m.py` (`import os` header, function
`add` on lines 3-4). -/
theorem structural_span_correct_witness :
    ∃ s e, (astChunkOfNode c6content metaM nodeAdd).metadata.start_line = some s ∧
      (astChunkOfNode c6content metaM nodeAdd).metadata.end_line = some e ∧
      (astChunkOfNode c6content metaM nodeAdd).page_content =
        importHeaderBlock c6content metaM.source ++ sliceLines c6content s e :=
  @structural_span_correct c6content metaM 1000 [nodeAdd]
    (astChunkOfNode c6content metaM nodeAdd) (by decide)

/-- Claim C2 counterexample: for the import-free file `def f():\n    pass`,
the Structural Splitter emits a chunk with `has_imports = true` although the
extracted import header is empty and the content does not begin with the
header line of an import block, refuting both halves of the claim as stated. -/
theorem structural_has_imports_without_header :
    _split_python_with_ast "def f():\n    pass" metaB 1000
        (some [{ name := "f", isClass := false, lineno := 1, end_lineno := 2 }]) = [chunkB] ∧
    chunkB.metadata.has_imports = true ∧
    _extract_imports "def f():\n    pass" = "" ∧
    pyStartsWith chunkB.page_content "# Imports from " = false := by decide

/-- Claim C2 (amended): every structural chunk carries `has_imports = true`
(even when the file has no import header); when the extracted import header is
non-empty, the chunk's content does begin with the import-block header line. -/
theorem structural_chunk_import_flag {content : String} {meta : Meta} {chunk_size : Nat}
    {parsed : Option (List PyNode)} {c : Document}
    (hc : c ∈ _split_python_with_ast content meta chunk_size parsed) :
    c.metadata.has_imports = true ∧
      (_extract_imports content ≠ "" →
        ∃ rest, c.page_content =
          "# Imports from " ++ meta.source ++ "\n" ++ _extract_imports content ++ "\n\n" ++ rest) := by
  obtain ⟨nodes, _, node, hn, hcn, _⟩ := mem_split_python hc
  subst hcn
  refine ⟨(astChunkOfNode_fields content meta node).2.2.1, fun hne => ?_⟩
  exact ⟨joinNl (((pySplitLines content).drop (node.lineno - 1)).take
      (node.end_lineno - (node.lineno - 1))),
    astChunkOfNode_content_imports hne⟩

/-- Witness for the amended claim C2 at the file `w.py` (`import os` header,
function `h` on lines 2-3). -/
theorem structural_chunk_import_flag_witness :
    (astChunkOfNode c2content metaW nodeH).metadata.has_imports = true ∧
    ∃ rest, (astChunkOfNode c2content metaW nodeH).page_content =
      "# Imports from " ++ metaW.source ++ "\n" ++ _extract_imports c2content ++ "\n\n" ++ rest := by
  have h := @structural_chunk_import_flag c2content metaW 1000 (some [nodeH])
      (astChunkOfNode c2content metaW nodeH) (by decide)
  exact ⟨h.1, h.2 (by decide)⟩

/-- Claim C9 counterexample: on `import os\n# c\nimport sys\nx = 1` the
extracted header is the import lines only; the comment line among them is not
collected, so the header differs from the claim's "imports together with the
blank and comment lines among them" (the takeWhile scan without filtering). -/
theorem extract_imports_drops_comment_lines :
    _extract_imports c9input = "import os\nimport sys" ∧
    joinNl ((pySplitLines c9input).takeWhile (fun l => isImportLine l || isBlankOrComment l)) =
      "import os\n# c\nimport sys" ∧
    ("import os\nimport sys" : String) ≠ "import os\n# c\nimport sys" := by decide

/-- Claim C9 (amended): the extracted import header consists of only the
lines of import style among the lines scanned from the top; blank and comment
lines neither stop the scan nor are collected; the scan stops at the first
substantive line that is neither an import, a comment, nor blank. -/
theorem extract_imports_characterization (code : String) :
    _extract_imports code =
      joinNl (((pySplitLines code).takeWhile
        (fun l => isImportLine l || isBlankOrComment l)).filter isImportLine) := by
  unfold _extract_imports
  congr 1
  generalize pySplitLines code = lines
  induction lines with
  | nil => rfl
  | cons line rest ih =>
    simp only [importsLoop]
    by_cases h1 : isImportLine line = true
    · have h1' : (pyStartsWith (pyStrip line) "import " ||
          pyStartsWith (pyStrip line) "from ") = true := h1
      rw [if_pos h1']
      rw [List.takeWhile_cons, if_pos (by simp [h1])]
      rw [List.filter_cons, if_pos h1]
      rw [ih]
    · have h1' : ¬ (pyStartsWith (pyStrip line) "import " ||
          pyStartsWith (pyStrip line) "from ") = true := h1
      rw [if_neg h1']
      by_cases h2 : isBlankOrComment line = true
      · have hcond : (pyStrip line != "" && !pyStartsWith (pyStrip line) "#") = false := by
          simp only [isBlankOrComment, Bool.or_eq_true, beq_iff_eq] at h2
          rcases h2 with h2 | h2
          · simp [h2]
          · simp [h2]
        rw [hcond]
        simp only [Bool.false_eq_true, if_false]
        rw [List.takeWhile_cons, if_pos (by simp [h2])]
        rw [List.filter_cons, if_neg (by simp [h1])]
        exact ih
      · have hcond : (pyStrip line != "" && !pyStartsWith (pyStrip line) "#") = true := by
          simp only [isBlankOrComment, Bool.or_eq_true, beq_iff_eq, not_or,
            Bool.not_eq_true] at h2
          simp [bne_iff_ne, h2.1, h2.2]
        rw [hcond]
        simp only [if_true]
        rw [List.takeWhile_cons, if_neg (by simp [h1, h2])]
        rfl

/-- Claim C10: every chunk the Structural Splitter returns is within 1.5x
the target chunk size, so the post-hoc oversized check in the hybrid
orchestrator never finds any, and for a `.py` file the fallback branch is
taken exactly when the structural chunk list is empty. -/
theorem structural_size_bound_and_fallback (content : String) (meta : Meta)
    (chunk_size chunk_overlap : Nat) (parsed : Option (List PyNode))
    (pyParse : String → Option (List PyNode)) (doc : Document) :
    (∀ c ∈ _split_python_with_ast content meta chunk_size parsed,
        2 * c.page_content.length ≤ 3 * chunk_size) ∧
    (_split_python_with_ast content meta chunk_size parsed).filter
        (fun c => decide (3 * chunk_size < 2 * c.page_content.length)) = [] ∧
    (extOf doc.metadata.source = ".py" →
      hybridProcessDoc pyParse chunk_size chunk_overlap doc =
        .ok (if (_split_python_with_ast doc.page_content doc.metadata chunk_size
                  (pyParse doc.page_content)).isEmpty then
               _language_aware_split [doc] chunk_size chunk_overlap
             else
               _split_python_with_ast doc.page_content doc.metadata chunk_size
                 (pyParse doc.page_content))) := by
  refine ⟨split_python_size, split_python_filter_oversized content meta chunk_size parsed, ?_⟩
  intro hext
  have hnb : isNotebookDoc doc = false := by
    unfold isNotebookDoc
    rw [hext]
    simp
  unfold hybridProcessDoc
  rw [if_neg (by rw [hnb]; exact Bool.false_ne_true)]
  congr 1
  simp only [splitStage]
  rw [if_pos (by rw [hext]; rfl)]
  rw [split_python_filter_oversized doc.page_content doc.metadata chunk_size
    (pyParse doc.page_content)]
  simp

/-- Witness for claim C10: the size bound at the `add` chunk of `m.py`, and
the per-file hybrid equation at the definition-free `.py` file `p.py`. -/
theorem structural_size_bound_and_fallback_witness :
    2 * (astChunkOfNode c6content metaM nodeAdd).page_content.length ≤ 3 * 1000 ∧
    hybridProcessDoc pyParseW 1000 200 docPyW =
      .ok (if (_split_python_with_ast docPyW.page_content docPyW.metadata 1000
                (pyParseW docPyW.page_content)).isEmpty then
             _language_aware_split [docPyW] 1000 200
           else
             _split_python_with_ast docPyW.page_content docPyW.metadata 1000
               (pyParseW docPyW.page_content)) := by
  have h := structural_size_bound_and_fallback c6content metaM 1000 200
    (some [nodeAdd]) pyParseW docPyW
  exact ⟨h.1 (astChunkOfNode c6content metaM nodeAdd) (by decide), h.2.2 (by decide)⟩

/-- Claim C1 (code bug): for the file `a.py` holding a small `f` and an
oversized `g` with `chunk_size = 50`, the hybrid pipeline keeps the structural
chunk for `f` and silently omits the oversized `g` — the structural output is
not discarded and the Generic Splitter never runs, because
`_split_python_with_ast` already dropped `g`, so the orchestrator's oversized
check (which its comments expect to trigger the fallback) finds nothing. -/
theorem hybrid_keeps_partial_structural_output :
    _hybrid_split pyParse1 [doc1] 50 10 = .ok [chunkF] ∧
    chunkF.metadata.chunk_type = some "ast_node" ∧
    3 * 50 < 2 * (astChunkOfNode content1 metaA nodeG).page_content.length := by decide

/-- Claim C3 (code bug): the input `[]` is valid JSON but not a notebook
object, and `parse_notebook` raises an uncaught `AttributeError`
(`list.get` does not exist) instead of returning the input unchanged. -/
theorem parse_notebook_raises_on_json_array :
    parse_notebook "[]" = .error PyErr.attributeError ∧
    (jsonLoads "[]").isSome = true := by decide

/-- Claim C4 (code bug): a batch with a malformed notebook (`nb.ipynb` holding
`[]`) aborts wholesale with the uncaught `AttributeError`, losing the
well-formed second file, which alone would have produced its chunk. -/
theorem hybrid_aborts_batch_on_malformed_notebook :
    _hybrid_split pyParseNone [docNb, docMd] 1000 200 = .error PyErr.attributeError ∧
    _hybrid_split pyParseNone [docMd] 1000 200 = .ok [docMd] := by decide

/-- Claim C5 counterexample: the notebook file `e.ipynb` has non-empty content
(a valid notebook JSON object with zero cells), yet the hybrid pipeline
returns an empty chunk list for it, because the normalizer flattens it to the
empty string before splitting. -/
theorem nonempty_file_zero_chunks :
    _hybrid_split pyParseNone [docNbEmpty] 1000 200 = .ok [] ∧
    docNbEmpty.page_content ≠ "" := by decide

/-- Claim C5 (amended): when the hybrid pipeline completes, every input file
whose effective content — the normalizer's output for notebook files, the raw
content otherwise — is non-empty contributes at least one chunk carrying its
source path. -/
theorem nonempty_effective_content_yields_chunk
    {pyParse : String → Option (List PyNode)} {docs : List Document}
    {chunk_size chunk_overlap : Nat} {chunks : List Document}
    (h : _hybrid_split pyParse docs chunk_size chunk_overlap = .ok chunks)
    {d : Document} (hd : d ∈ docs) {t : String}
    (ht : effectiveContent d = .ok t) (hne : t ≠ "") :
    ∃ c ∈ chunks, c.metadata.source = d.metadata.source := by
  unfold _hybrid_split at h
  cases hall : hybridDocs pyParse chunk_size chunk_overlap docs with
  | error e => rw [hall] at h; simp at h
  | ok all =>
    rw [hall] at h
    simp only [Except.ok.injEq] at h
    subst h
    obtain ⟨lst, hproc, hsub⟩ := hybridDocs_mem hall d hd
    have hlstne := hybridProcessDoc_ne_nil hproc ht hne
    cases hlst : lst with
    | nil => exact absurd hlst hlstne
    | cons c0 rest =>
      have hc0mem : c0 ∈ lst := hlst ▸ List.mem_cons_self c0 rest
      refine ⟨enrichChunk (_build_import_map docs) c0, ?_, ?_⟩
      · exact List.mem_map_of_mem _ (hsub c0 hc0mem)
      · rw [enrichChunk_metadata_source]
        exact hybridProcessDoc_source hproc c0 hc0mem

/-- Witness for the amended claim C5: the definition-free file `p.py` holding
`x = 1` contributes its single generic chunk. -/
theorem nonempty_effective_content_yields_chunk_witness :
    ∃ c ∈ [docPyW], c.metadata.source = docPyW.metadata.source :=
  @nonempty_effective_content_yields_chunk pyParseW [docPyW] 1000 200 [docPyW]
    (by decide) docPyW (by decide) "x = 1" (by decide) (by decide)
